import Mathlib

/-!
Shallow embedding of the `nawa` rope crate and its `naive` flat-vector
oracle, with correctness proofs for the specified contract.

Rust panics are modelled as `Except` errors carrying the payload of the
panic diagnostic (the lengths and indices that the panic message reports).
-/

set_option autoImplicit false

/-- The failure conditions of the two rope implementations, carrying the
numbers that appear in the corresponding Rust panic messages. -/
inductive RopeError : Type
  /-- `Repr::split`'s bound check: "index out of bounds: the len is {len}
  but the index is {idx}". -/
  | indexOutOfBounds (len idx : Nat)
  /-- `Vec::split_off`'s own bound check (reachable in `naive::Rope::insert`,
  and in `nawa` only on trees with corrupt cached lengths). -/
  | splitOffOutOfBounds (idx len : Nat)
  /-- The `assert!(range.start <= range.end)` guard in `remove`. -/
  | invalidRange (start stop : Nat)
  deriving DecidableEq

namespace Nawa

/-- `enum Repr<T> { Leaf(Vec<T>), Node(Box<Repr<T>>, usize, Box<Repr<T>>) }`:
a leaf holds a run of elements; a node holds two subtrees and a cached
total element count. -/
inductive Repr (α : Type) : Type
  | Leaf : List α → Repr α
  | Node : Repr α → Nat → Repr α → Repr α
  deriving DecidableEq

namespace Repr

variable {α : Type}

/-- `Repr::new`: an empty leaf. -/
def new : Repr α := .Leaf []

/-- `Repr::len`: leaf length, or the cached count of a node. -/
def len : Repr α → Nat
  | .Leaf xs => xs.length
  | .Node _ n _ => n

/-- `Repr::node`, the smart constructor: the Rust `match` on
`(left.len(), right.len())` returns `right` when the left length is `0`,
`left` when the right length is `0`, and otherwise a `Node` caching the
sum of the two lengths. -/
def node (left right : Repr α) : Repr α :=
  if left.len = 0 then right
  else if right.len = 0 then left
  else .Node left (left.len + right.len) right

/-- The descent loop of `Repr::split` together with its stack unwind.
The Rust loop pushes each bypassed sibling with a direction tag and, on
reaching the leaf, splits the leaf's vector (`Vec::split_off`, which
panics when the local index exceeds the leaf's length) and then folds the
stack in reverse (deepest sibling first) through `node`; that is exactly
this structural recursion, which reattaches the deepest siblings first. -/
def splitAux : Repr α → Nat → Except RopeError (Repr α × Repr α)
  | .Leaf xs, i =>
      if i ≤ xs.length then .ok (.Leaf (xs.take i), .Leaf (xs.drop i))
      else .error (.splitOffOutOfBounds i xs.length)
  | .Node l _ r, i =>
      if i < l.len then
        match splitAux l i with
        | .ok (a, b) => .ok (a, node b r)
        | .error e => .error e
      else
        match splitAux r (i - l.len) with
        | .ok (a, b) => .ok (node l a, b)
        | .error e => .error e

/-- `Repr::split`: panics (here: returns an error) with the cached length
and the index iff `i > self.len()`, and otherwise runs the descent loop. -/
def split (t : Repr α) (i : Nat) : Except RopeError (Repr α × Repr α) :=
  if t.len < i then .error (.indexOutOfBounds t.len i)
  else t.splitAux i

/-- `Repr::to_vec`: in-order flattening. The Rust code is an iterative
traversal with an explicit stack of pending right subtrees, which emits
exactly the left-to-right leaf contents. -/
def to_vec : Repr α → List α
  | .Leaf xs => xs
  | .Node l _ r => to_vec l ++ to_vec r

/-- The structural invariant of reachable trees: every node caches the sum
of its children's lengths and has no zero-length child. -/
def Wf : Repr α → Prop
  | .Leaf _ => True
  | .Node l n r => Wf l ∧ Wf r ∧ n = l.len + r.len ∧ l.len ≠ 0 ∧ r.len ≠ 0

end Repr

/-- `struct Rope<T> { repr: Repr<T> }`. -/
structure Rope (α : Type) : Type where
  repr : Repr α
  deriving DecidableEq

namespace Rope

variable {α : Type}

/-- `Rope::new`. -/
def new : Rope α := ⟨Repr.new⟩

/-- `Rope::len`. -/
def len (r : Rope α) : Nat := r.repr.len

/-- `Rope::is_empty`. -/
def is_empty (r : Rope α) : Bool := r.len == 0

/-- `From<Vec<T>> for Rope<T>` (`from` is a Lean keyword). -/
def ofList (xs : List α) : Rope α := ⟨Repr.Leaf xs⟩

/-- `Rope::insert`: `let (a, c) = self.repr.split(i)` (whose panic
propagates through the `map`), wrap `xs` in a leaf `b`, and rebuild as
`node(a, node(b, c))`. -/
def insert (r : Rope α) (i : Nat) (xs : List α) : Except RopeError (Rope α) :=
  (r.repr.split i).map fun p => ⟨Repr.node p.1 (Repr.node (.Leaf xs) p.2)⟩

/-- `Rope::remove`: assert `start <= end`, `let (a, b) = split(start)`,
`let (_, d) = b.split(end - start)` (each split's panic propagating),
discard the middle, and rebuild as `node(a, d)`. -/
def remove (r : Rope α) (start stop : Nat) : Except RopeError (Rope α) :=
  if start ≤ stop then
    (r.repr.split start).bind fun p =>
      (p.2.split (stop - start)).map fun q => ⟨Repr.node p.1 q.2⟩
  else .error (.invalidRange start stop)

/-- `Rope::to_vec`. -/
def to_vec (r : Rope α) : List α := r.repr.to_vec

/-- `PartialEq for Rope`: `self.to_vec() == other.to_vec()`. -/
def beq [BEq α] (a b : Rope α) : Bool := a.to_vec == b.to_vec

end Rope

/-- Lexicographic comparison of the flattened contents, as `Ord for Vec`
does in Rust: compare elementwise, and on a tie the shorter is smaller. -/
def cmpList {α : Type} [Ord α] : List α → List α → Ordering
  | [], [] => .eq
  | [], _ :: _ => .lt
  | _ :: _, [] => .gt
  | x :: xs, y :: ys =>
      match compare x y with
      | .eq => cmpList xs ys
      | o => o

/-- `Ord for Rope`: `self.to_vec().cmp(&other.to_vec())`. -/
def Rope.cmp {α : Type} [Ord α] (a b : Rope α) : Ordering :=
  cmpList a.to_vec b.to_vec

end Nawa

namespace Naive

/-- `naive::Rope<T>`: the flat-vector oracle, `struct Rope<T> { repr: Vec<T> }`. -/
structure Rope (α : Type) : Type where
  repr : List α
  deriving DecidableEq

namespace Rope

variable {α : Type}

/-- `naive::Rope::new`. -/
def new : Rope α := ⟨[]⟩

/-- `naive::Rope::len`. -/
def len (r : Rope α) : Nat := r.repr.length

/-- `naive::Rope::is_empty`: `self.repr.is_empty()`. -/
def is_empty (r : Rope α) : Bool := r.repr.isEmpty

/-- `From<Vec<T>> for naive::Rope<T>`. -/
def fromList (xs : List α) : Rope α := ⟨xs⟩

/-- `naive::Rope::insert`: `split_off(i)` (which panics when `i > len`),
then append `xs` and the tail back on. -/
def insert (r : Rope α) (i : Nat) (xs : List α) : Except RopeError (Rope α) :=
  if i ≤ r.repr.length then .ok ⟨r.repr.take i ++ xs ++ r.repr.drop i⟩
  else .error (.splitOffOutOfBounds i r.repr.length)

/-- `naive::Rope::remove`: assert `start <= end`, then keep exactly the
elements whose index is outside `[start, stop)`
(`enumerate().filter_map(...)` with `range.contains(&i)`). -/
def remove (r : Rope α) (start stop : Nat) : Except RopeError (Rope α) :=
  if start ≤ stop then
    .ok ⟨r.repr.enum.filterMap fun jx =>
      if start ≤ jx.1 ∧ jx.1 < stop then none else some jx.2⟩
  else .error (.invalidRange start stop)

/-- `naive::Rope::to_vec`. -/
def to_vec (r : Rope α) : List α := r.repr

end Rope

end Naive

/-- One step of the differential harness in `tests/src/lib.rs`: either an
insertion of a block at an index, or a removal of a range. -/
inductive Op (α : Type) : Type
  | ins (i : Nat) (xs : List α)
  | del (s e : Nat)

/-- Validity of an operation against the current length, as the harness
generates them: inserts at `i <= len`, removals of `start <= end <= len`. -/
def Op.valid {α : Type} (n : Nat) : Op α → Prop
  | .ins i _ => i ≤ n
  | .del s e => s ≤ e ∧ e ≤ n

/-- Length after applying a valid operation. -/
def Op.newLen {α : Type} (n : Nat) : Op α → Nat
  | .ins _ xs => n + xs.length
  | .del s e => n - (e - s)

/-- A sequence of operations each valid for the evolving length. -/
def validSeq {α : Type} : Nat → List (Op α) → Prop
  | _, [] => True
  | n, op :: ops => op.valid n ∧ validSeq (op.newLen n) ops

/-- Apply a harness operation to the tree-based rope. -/
def applyNawa {α : Type} (r : Nawa.Rope α) : Op α → Except RopeError (Nawa.Rope α)
  | .ins i xs => r.insert i xs
  | .del s e => r.remove s e

/-- Apply a harness operation to the flat-vector oracle. -/
def applyNaive {α : Type} (r : Naive.Rope α) : Op α → Except RopeError (Naive.Rope α)
  | .ins i xs => r.insert i xs
  | .del s e => r.remove s e

/-- Lockstep execution: both implementations succeed on every step and
`len`, `is_empty` and `to_vec` agree after each one, as the harness
asserts. -/
def lockstep {α : Type} : Nawa.Rope α → Naive.Rope α → List (Op α) → Prop
  | _, _, [] => True
  | r, n, op :: ops => ∃ r' n', applyNawa r op = .ok r' ∧ applyNaive n op = .ok n' ∧
      r'.len = n'.len ∧ r'.is_empty = n'.is_empty ∧ r'.to_vec = n'.to_vec ∧
      lockstep r' n' ops

namespace Nawa

namespace Repr

variable {α : Type}

@[simp] theorem len_Leaf (xs : List α) : (Leaf xs).len = xs.length := rfl

@[simp] theorem len_Node (l : Repr α) (n : Nat) (r : Repr α) :
    (Node l n r).len = n := rfl

@[simp] theorem to_vec_Leaf (xs : List α) : (Leaf xs).to_vec = xs := rfl

@[simp] theorem to_vec_Node (l : Repr α) (n : Nat) (r : Repr α) :
    (Node l n r).to_vec = l.to_vec ++ r.to_vec := rfl

@[simp] theorem Wf_Leaf (xs : List α) : (Leaf xs).Wf := trivial

theorem Wf_Node_iff {l : Repr α} {n : Nat} {r : Repr α} :
    (Node l n r).Wf ↔ l.Wf ∧ r.Wf ∧ n = l.len + r.len ∧ l.len ≠ 0 ∧ r.len ≠ 0 :=
  Iff.rfl

/-- The cached length of `node a b` is the sum of the operands' cached
lengths, in every branch of the smart constructor. -/
theorem len_node (a b : Repr α) : (node a b).len = a.len + b.len := by
  unfold node
  split_ifs with h0 h1 <;> simp_all

/-- The smart constructor preserves the invariant. -/
theorem Wf_node {a b : Repr α} (ha : a.Wf) (hb : b.Wf) : (node a b).Wf := by
  unfold node
  split_ifs with h0 h1
  · exact hb
  · exact ha
  · exact ⟨ha, hb, rfl, h0, h1⟩

/-- On well-formed trees the cached length is the real element count. -/
theorem length_to_vec {t : Repr α} (h : t.Wf) : t.to_vec.length = t.len := by
  induction t with
  | Leaf xs => rfl
  | Node l n r ihl ihr =>
      obtain ⟨hl, hr, hn, -, -⟩ := Wf_Node_iff.mp h
      simp [ihl hl, ihr hr, hn]

/-- On well-formed operands, `node` flattens to the concatenation. -/
theorem to_vec_node {a b : Repr α} (ha : a.Wf) (hb : b.Wf) :
    (node a b).to_vec = a.to_vec ++ b.to_vec := by
  unfold node
  split_ifs with h0 h1
  · have : a.to_vec.length = 0 := by rw [length_to_vec ha, h0]
    simp [List.length_eq_zero.mp this]
  · have : b.to_vec.length = 0 := by rw [length_to_vec hb, h1]
    simp [List.length_eq_zero.mp this]
  · rfl

theorem take_append_ge {β : Type} {l₁ l₂ : List β} {n : Nat} (h : l₁.length ≤ n) :
    (l₁ ++ l₂).take n = l₁ ++ l₂.take (n - l₁.length) := by
  rw [List.take_append_eq_append_take, List.take_of_length_le h]

theorem drop_append_ge {β : Type} {l₁ l₂ : List β} {n : Nat} (h : l₁.length ≤ n) :
    (l₁ ++ l₂).drop n = l₂.drop (n - l₁.length) := by
  rw [List.drop_append_eq_append_drop, List.drop_eq_nil_of_le h, List.nil_append]

/-- Correctness of the split descent loop on well-formed trees: for
`i ≤ len` it succeeds with well-formed halves flattening to the take and
the drop of the flattened tree. -/
theorem splitAux_ok {t : Repr α} (h : t.Wf) {i : Nat} (hi : i ≤ t.len) :
    ∃ a b, t.splitAux i = .ok (a, b) ∧ a.Wf ∧ b.Wf ∧
      a.to_vec = t.to_vec.take i ∧ b.to_vec = t.to_vec.drop i := by
  induction t generalizing i with
  | Leaf xs =>
      refine ⟨.Leaf (xs.take i), .Leaf (xs.drop i), ?_, trivial, trivial, rfl, rfl⟩
      simp only [splitAux, len_Leaf] at hi ⊢
      rw [if_pos hi]
  | Node l n r ihl ihr =>
      obtain ⟨hl, hr, hn, hl0, hr0⟩ := Wf_Node_iff.mp h
      have hllen : l.to_vec.length = l.len := length_to_vec hl
      by_cases hc : i < l.len
      · obtain ⟨a, b, heq, wa, wb, hta, htb⟩ := ihl hl (Nat.le_of_lt hc)
        refine ⟨a, node b r, ?_, wa, Wf_node wb hr, ?_, ?_⟩
        · simp [splitAux, hc, heq]
        · rw [hta, to_vec_Node, List.take_append_of_le_length (by omega)]
        · rw [to_vec_node wb hr, htb, to_vec_Node,
            List.drop_append_of_le_length (by omega)]
      · have hc' : l.len ≤ i := Nat.le_of_not_lt hc
        have : i - l.len ≤ r.len := by simp only [len_Node] at hi; omega
        obtain ⟨a, b, heq, wa, wb, hta, htb⟩ := ihr hr this
        refine ⟨node l a, b, ?_, Wf_node hl wa, wb, ?_, ?_⟩
        · simp [splitAux, hc, heq]
        · rw [to_vec_node hl wa, hta, to_vec_Node, take_append_ge (by omega), hllen]
        · rw [htb, to_vec_Node, drop_append_ge (by omega), hllen]

/-- `Repr::split` succeeds exactly as its loop does when `i ≤ len`. -/
theorem split_ok {t : Repr α} (h : t.Wf) {i : Nat} (hi : i ≤ t.len) :
    ∃ a b, t.split i = .ok (a, b) ∧ a.Wf ∧ b.Wf ∧
      a.to_vec = t.to_vec.take i ∧ b.to_vec = t.to_vec.drop i := by
  obtain ⟨a, b, heq, wa, wb, hta, htb⟩ := splitAux_ok h hi
  exact ⟨a, b, by simp [split, Nat.not_lt.mpr hi, heq], wa, wb, hta, htb⟩

/-- `Repr::split` panics with the cached length and the index iff the
index exceeds the cached length. -/
theorem split_err (t : Repr α) {i : Nat} (hi : t.len < i) :
    t.split i = .error (.indexOutOfBounds t.len i) := by
  simp [split, hi]

/-- Whenever `split` returns at all, both returned trees are well-formed. -/
theorem split_wf {t : Repr α} {i : Nat} {a b : Repr α} (h : t.Wf)
    (heq : t.split i = .ok (a, b)) : a.Wf ∧ b.Wf := by
  by_cases hi : i ≤ t.len
  · obtain ⟨a', b', heq', wa, wb, -, -⟩ := split_ok h hi
    rw [heq'] at heq
    simp only [Except.ok.injEq, Prod.mk.injEq] at heq
    obtain ⟨rfl, rfl⟩ := heq
    exact ⟨wa, wb⟩
  · rw [split_err t (Nat.not_le.mp hi)] at heq
    cases heq

end Repr

namespace Rope

variable {α : Type}

/-- `Rope::insert` at a valid index: succeeds, keeps the invariant, splices
`xs` in at position `i`, and adds `xs.length` to the length. -/
theorem insert_ok {r : Rope α} (h : r.repr.Wf) {i : Nat} (hi : i ≤ r.len)
    (xs : List α) :
    ∃ r', r.insert i xs = .ok r' ∧ r'.repr.Wf ∧
      r'.to_vec = r.to_vec.take i ++ xs ++ r.to_vec.drop i ∧
      r'.len = r.len + xs.length := by
  simp only [len] at hi
  obtain ⟨a, c, heq, wa, wc, hta, htc⟩ := Repr.split_ok h hi
  have hrlen : r.repr.to_vec.length = r.repr.len := Repr.length_to_vec h
  have wb : (Repr.Leaf xs).Wf := trivial
  have wbc : (Repr.node (Repr.Leaf xs) c).Wf := Repr.Wf_node wb wc
  have ha : a.len = i := by
    rw [← Repr.length_to_vec wa, hta, List.length_take]
    omega
  have hclen : c.len = r.repr.len - i := by
    rw [← Repr.length_to_vec wc, htc, List.length_drop, hrlen]
  refine ⟨⟨Repr.node a (Repr.node (Repr.Leaf xs) c)⟩, ?_, Repr.Wf_node wa wbc, ?_, ?_⟩
  · simp only [insert, heq, Except.map]
  · show (Repr.node a (Repr.node (Repr.Leaf xs) c)).to_vec = _
    rw [Repr.to_vec_node wa wbc, Repr.to_vec_node wb wc, hta, htc]
    simp [to_vec]
  · show (Repr.node a (Repr.node (Repr.Leaf xs) c)).len = _
    rw [Repr.len_node, Repr.len_node, ha, hclen]
    simp only [len, Repr.len_Leaf]
    omega

/-- `Rope::insert` at an out-of-bounds index: the first split's panic,
reporting the rope's length and the index, propagates. -/
theorem insert_err {r : Rope α} {i : Nat} (hi : r.len < i) (xs : List α) :
    r.insert i xs = .error (.indexOutOfBounds r.len i) := by
  simp only [len] at hi ⊢
  simp only [insert, Repr.split_err r.repr hi, Except.map]

/-- `Rope::remove` of a valid range: succeeds, keeps the invariant, drops
the elements of `[s, e)`, and shortens the length by `e - s`. -/
theorem remove_ok {r : Rope α} (h : r.repr.Wf) {s e : Nat} (hse : s ≤ e)
    (he : e ≤ r.len) :
    ∃ r', r.remove s e = .ok r' ∧ r'.repr.Wf ∧
      r'.to_vec = r.to_vec.take s ++ r.to_vec.drop e ∧
      r'.len = r.len - (e - s) := by
  simp only [len] at he ⊢
  have hs : s ≤ r.repr.len := le_trans hse he
  obtain ⟨a, b, heq, wa, wb, hta, htb⟩ := Repr.split_ok h hs
  have hrlen : r.repr.to_vec.length = r.repr.len := Repr.length_to_vec h
  have hblen : b.len = r.repr.len - s := by
    rw [← Repr.length_to_vec wb, htb, List.length_drop, hrlen]
  have h2 : e - s ≤ b.len := by omega
  obtain ⟨c, d, heq2, wc, wd, htc, htd⟩ := Repr.split_ok wb h2
  have ha : a.len = s := by
    rw [← Repr.length_to_vec wa, hta, List.length_take]
    omega
  have htd' : d.to_vec = r.repr.to_vec.drop e := by
    rw [htd, htb, List.drop_drop]
    congr 1
    omega
  have hdlen : d.len = r.repr.len - e := by
    rw [← Repr.length_to_vec wd, htd', List.length_drop, hrlen]
  refine ⟨⟨Repr.node a d⟩, ?_, Repr.Wf_node wa wd, ?_, ?_⟩
  · simp only [remove, if_pos hse, heq, Except.bind, heq2, Except.map]
  · show (Repr.node a d).to_vec = _
    rw [Repr.to_vec_node wa wd, hta, htd']
    rfl
  · show (Repr.node a d).len = _
    rw [Repr.len_node, ha, hdlen]
    omega

/-- `Rope::remove` with `start > end`: the `assert!` fails first. -/
theorem remove_invalid {r : Rope α} {s e : Nat} (h : e < s) :
    r.remove s e = .error (.invalidRange s e) := by
  simp only [remove, if_neg (Nat.not_le.mpr h)]

/-- `Rope::remove` with `start <= end` but `start` itself out of bounds:
the FIRST split panics, reporting the rope's length and `start`. -/
theorem remove_oob_first {r : Rope α} {s e : Nat} (hse : s ≤ e) (hs : r.len < s) :
    r.remove s e = .error (.indexOutOfBounds r.len s) := by
  simp only [len] at hs ⊢
  simp only [remove, if_pos hse, Repr.split_err r.repr hs, Except.bind]

/-- `Rope::remove` with `start <= len < end`: the SECOND split panics,
reporting the remainder's length `len - start` and the relative index
`end - start`. -/
theorem remove_oob_second {r : Rope α} (h : r.repr.Wf) {s e : Nat}
    (hs : s ≤ r.len) (he : r.len < e) :
    r.remove s e = .error (.indexOutOfBounds (r.len - s) (e - s)) := by
  simp only [len] at hs he ⊢
  have hse : s ≤ e := le_trans hs (Nat.le_of_lt he)
  obtain ⟨a, b, heq, wa, wb, hta, htb⟩ := Repr.split_ok h hs
  have hrlen : r.repr.to_vec.length = r.repr.len := Repr.length_to_vec h
  have hblen : b.len = r.repr.len - s := by
    rw [← Repr.length_to_vec wb, htb, List.length_drop, hrlen]
  have hlt : b.len < e - s := by omega
  have h2 := Repr.split_err b hlt
  rw [hblen] at h2
  simp only [remove, if_pos hse, heq, Except.bind, h2, Except.map]

/-- Whenever `insert` succeeds, the result is well-formed. -/
theorem insert_wf {r r' : Rope α} {i : Nat} {xs : List α} (h : r.repr.Wf)
    (heq : r.insert i xs = .ok r') : r'.repr.Wf := by
  by_cases hi : i ≤ r.len
  · obtain ⟨r'', heq', w, -, -⟩ := insert_ok h hi xs
    rw [heq'] at heq
    cases heq
    exact w
  · rw [insert_err (Nat.not_le.mp hi) xs] at heq
    cases heq

/-- Whenever `remove` succeeds, the result is well-formed. -/
theorem remove_wf {r r' : Rope α} {s e : Nat} (h : r.repr.Wf)
    (heq : r.remove s e = .ok r') : r'.repr.Wf := by
  by_cases hse : s ≤ e
  · by_cases he : e ≤ r.len
    · obtain ⟨r'', heq', w, -, -⟩ := remove_ok h hse he
      rw [heq'] at heq
      cases heq
      exact w
    · by_cases hs : s ≤ r.len
      · rw [remove_oob_second h hs (Nat.not_le.mp he)] at heq
        cases heq
      · rw [remove_oob_first hse (Nat.not_le.mp hs)] at heq
        cases heq
  · rw [remove_invalid (Nat.not_le.mp hse)] at heq
    cases heq

end Rope

end Nawa

namespace Naive

/-- Keeping the elements of `enumerate()` whose index lies outside
`[s, e)` (with `s ≤ e`) leaves the prefix before `s` and the suffix from
`e` on, relative to the enumeration offset `k`. -/
theorem removeRange_eq {α : Type} {s e : Nat} (hse : s ≤ e) (l : List α) (k : Nat) :
    ((List.enumFrom k l).filterMap fun jx =>
        if s ≤ jx.1 ∧ jx.1 < e then none else some jx.2)
      = l.take (s - k) ++ l.drop (e - k) := by
  induction l generalizing k with
  | nil => simp
  | cons x xs ih =>
      rw [show List.enumFrom k (x :: xs) = (k, x) :: List.enumFrom (k + 1) xs from rfl,
        List.filterMap_cons]
      by_cases hk : s ≤ k ∧ k < e
      · have h2 : s - k = 0 := by omega
        have h2' : s - (k + 1) = 0 := by omega
        have h3 : e - k = (e - (k + 1)) + 1 := by omega
        simp only [if_pos hk, ih (k + 1), h2, h2', h3]
        simp
      · by_cases hks : k < s
        · have h1 : s - k = (s - (k + 1)) + 1 := by omega
          have h3 : e - k = (e - (k + 1)) + 1 := by omega
          simp only [if_neg hk, ih (k + 1), h1, h3]
          simp
        · have h1 : s - k = 0 := by omega
          have h1' : s - (k + 1) = 0 := by omega
          have h3 : e - k = 0 := by omega
          have h3' : e - (k + 1) = 0 := by omega
          simp only [if_neg hk, ih (k + 1), h1, h1', h3, h3']
          simp

namespace Rope

variable {α : Type}

/-- `naive::Rope::insert` at a valid index splices `xs` in. -/
theorem naive_insert_ok {r : Rope α} {i : Nat} (hi : i ≤ r.len) (xs : List α) :
    r.insert i xs = .ok ⟨r.repr.take i ++ xs ++ r.repr.drop i⟩ := by
  simp only [len] at hi
  simp [insert, hi]

/-- `naive::Rope::insert` past the end panics inside `split_off`. -/
theorem naive_insert_err {r : Rope α} {i : Nat} (hi : r.len < i) (xs : List α) :
    r.insert i xs = .error (.splitOffOutOfBounds i r.len) := by
  simp only [len] at hi ⊢
  simp [insert, Nat.not_le.mpr hi]

/-- `naive::Rope::remove` with `start ≤ end` always succeeds and keeps
exactly the prefix before `start` and the suffix from `end` on (so an
`end` beyond the length only removes the in-bounds part). -/
theorem naive_remove_ok {r : Rope α} {s e : Nat} (hse : s ≤ e) :
    r.remove s e = .ok ⟨r.repr.take s ++ r.repr.drop e⟩ := by
  simp only [remove, if_pos hse]
  rw [show r.repr.enum = List.enumFrom 0 r.repr from rfl, removeRange_eq hse r.repr 0]
  simp

/-- `naive::Rope::remove` with `start > end` fails the assertion. -/
theorem naive_remove_err {r : Rope α} {s e : Nat} (h : e < s) :
    r.remove s e = .error (.invalidRange s e) := by
  simp [remove, Nat.not_le.mpr h]

end Rope

end Naive

namespace Nawa

/-- `cmpList` returns `eq` exactly on equal lists. -/
theorem cmpList_eq_iff (x y : List ℕ) : cmpList x y = .eq ↔ x = y := by
  induction x generalizing y with
  | nil => cases y <;> simp [cmpList]
  | cons a xs ih =>
      cases y with
      | nil => simp [cmpList]
      | cons b ys =>
          simp only [cmpList]
          cases hc : compare a b with
          | eq =>
              have hab : a = b := Nat.compare_eq_eq.mp hc
              subst hab
              simp [ih]
          | lt =>
              have hab : a ≠ b := Nat.ne_of_lt (Nat.compare_eq_lt.mp hc)
              simp [hab]
          | gt =>
              have hab : a ≠ b := ne_of_gt (Nat.compare_eq_gt.mp hc)
              simp [hab]

/-- `cmpList` returns `lt` exactly on lexicographically smaller lists. -/
theorem cmpList_lt_iff (x y : List ℕ) : cmpList x y = .lt ↔ List.Lex (· < ·) x y := by
  induction x generalizing y with
  | nil =>
      cases y with
      | nil =>
          constructor
          · intro h
            simp [cmpList] at h
          · intro h
            exact absurd h (List.Lex.not_nil_right _ _)
      | cons b ys =>
          constructor
          · intro _
            exact List.Lex.nil
          · intro _
            rfl
  | cons a xs ih =>
      cases y with
      | nil =>
          constructor
          · intro h
            simp [cmpList] at h
          · intro h
            exact absurd h (List.Lex.not_nil_right _ _)
      | cons b ys =>
          simp only [cmpList]
          cases hc : compare a b with
          | eq =>
              have hab : a = b := Nat.compare_eq_eq.mp hc
              subst hab
              rw [ih, List.Lex.cons_iff]
          | lt =>
              have hab : a < b := Nat.compare_eq_lt.mp hc
              constructor
              · intro _
                exact List.Lex.rel hab
              · intro _
                rfl
          | gt =>
              have hab : b < a := Nat.compare_eq_gt.mp hc
              constructor
              · intro h
                cases h
              · intro h
                cases h with
                | cons h2 => omega
                | rel h2 => omega

/-- `cmpList` returns `gt` exactly when the arguments are lexicographically
reversed. -/
theorem cmpList_gt_iff (x y : List ℕ) : cmpList x y = .gt ↔ List.Lex (· < ·) y x := by
  induction x generalizing y with
  | nil =>
      cases y with
      | nil =>
          constructor
          · intro h
            simp [cmpList] at h
          · intro h
            exact absurd h (List.Lex.not_nil_right _ _)
      | cons b ys =>
          constructor
          · intro h
            simp [cmpList] at h
          · intro h
            exact absurd h (List.Lex.not_nil_right _ _)
  | cons a xs ih =>
      cases y with
      | nil =>
          constructor
          · intro _
            exact List.Lex.nil
          · intro _
            rfl
      | cons b ys =>
          simp only [cmpList]
          cases hc : compare a b with
          | eq =>
              have hab : a = b := Nat.compare_eq_eq.mp hc
              subst hab
              rw [ih, List.Lex.cons_iff]
          | lt =>
              have hab : a < b := Nat.compare_eq_lt.mp hc
              constructor
              · intro h
                cases h
              · intro h
                cases h with
                | cons h2 => omega
                | rel h2 => omega
          | gt =>
              have hab : b < a := Nat.compare_eq_gt.mp hc
              constructor
              · intro _
                exact List.Lex.rel hab
              · intro _
                rfl

theorem Rope.to_vec_length {α : Type} {r : Rope α} (h : r.repr.Wf) :
    r.to_vec.length = r.len :=
  Repr.length_to_vec h

end Nawa

theorem Naive.Rope.is_empty_len {α : Type} (n : Naive.Rope α) :
    n.is_empty = (n.len == 0) := by
  obtain ⟨l⟩ := n
  cases l <;> simp [Naive.Rope.is_empty, Naive.Rope.len]

/-- C1: for every rope `r` (carrying the reachable-tree invariant), every
`i` with `0 ≤ i ≤ len r` and every list `xs`, `insert` succeeds and
`to_vec` of the result is `to_vec r` up to `i`, then `xs`, then the rest
of `to_vec r`, while the length grows by exactly `xs.length`. -/
theorem insert_splices (r : Nawa.Rope ℕ) (i : Nat) (xs : List ℕ)
    (hw : r.repr.Wf) (hi : i ≤ r.len) :
    ∃ r', r.insert i xs = .ok r' ∧
      r'.to_vec = r.to_vec.take i ++ xs ++ r.to_vec.drop i ∧
      r'.len = r.len + xs.length := by
  obtain ⟨r', h1, -, h2, h3⟩ := Nawa.Rope.insert_ok hw hi xs
  exact ⟨r', h1, h2, h3⟩

/-- Witness for C1 at `r = [2, 4]`, `i = 1`, `xs = [3, 5]` (the doc-test
example of `Rope::insert`). -/
theorem insert_splices_witness :
    ∃ r', (Nawa.Rope.ofList [2, 4]).insert 1 [3, 5] = .ok r' ∧
      r'.to_vec = [2, 3, 5, 4] ∧ r'.len = 4 := by
  obtain ⟨r', h1, h2, h3⟩ :=
    insert_splices (Nawa.Rope.ofList [2, 4]) 1 [3, 5] trivial (by decide)
  exact ⟨r', h1, h2.trans (by decide), h3.trans (by decide)⟩

/-- C2: for every rope `r` (carrying the invariant) and all
`start ≤ end ≤ len r`, `remove` succeeds, drops exactly the elements of
`[start, end)`, and shortens the length by `end - start`. -/
theorem remove_deletes (r : Nawa.Rope ℕ) (s e : Nat) (hw : r.repr.Wf)
    (hse : s ≤ e) (he : e ≤ r.len) :
    ∃ r', r.remove s e = .ok r' ∧
      r'.to_vec = r.to_vec.take s ++ r.to_vec.drop e ∧
      r'.len = r.len - (e - s) := by
  obtain ⟨r', h1, -, h2, h3⟩ := Nawa.Rope.remove_ok hw hse he
  exact ⟨r', h1, h2, h3⟩

/-- Witness for C2 at `r = [2, 4, 6, 8]`, range `[1, 3)` (the doc-test
example of `Rope::remove`). -/
theorem remove_deletes_witness :
    ∃ r', (Nawa.Rope.ofList [2, 4, 6, 8]).remove 1 3 = .ok r' ∧
      r'.to_vec = [2, 8] ∧ r'.len = 2 := by
  obtain ⟨r', h1, h2, h3⟩ :=
    remove_deletes (Nawa.Rope.ofList [2, 4, 6, 8]) 1 3 trivial (by decide) (by decide)
  exact ⟨r', h1, h2.trans (by decide), h3.trans (by decide)⟩

/-- C3: for every tree `t` satisfying the invariant and every `i ≤ len t`,
`split` returns a pair whose flattenings are the first `i` elements of
`flatten t` and the remaining ones. -/
theorem split_partitions (t : Nawa.Repr ℕ) (i : Nat) (hw : t.Wf) (hi : i ≤ t.len) :
    ∃ a b, t.split i = .ok (a, b) ∧
      a.to_vec = t.to_vec.take i ∧ b.to_vec = t.to_vec.drop i := by
  obtain ⟨a, b, h1, -, -, h2, h3⟩ := Nawa.Repr.split_ok hw hi
  exact ⟨a, b, h1, h2, h3⟩

/-- Witness for C3 on a two-leaf tree split in the middle of no leaf
boundary. -/
theorem split_partitions_witness :
    ∃ a b, (Nawa.Repr.Node (.Leaf [1, 2]) 3 (.Leaf [3])).split 1 = .ok (a, b) ∧
      a.to_vec = [1] ∧ b.to_vec = [2, 3] := by
  obtain ⟨a, b, h1, h2, h3⟩ :=
    split_partitions (Nawa.Repr.Node (.Leaf [1, 2]) 3 (.Leaf [3])) 1
      ⟨trivial, trivial, rfl, by decide, by decide⟩ (by decide)
  exact ⟨a, b, h1, h2.trans (by decide), h3.trans (by decide)⟩

/-- C9: inserting the empty list at any valid `i`, and deleting the empty
range `[i, i)`, leave both `to_vec` and `len` unchanged, including at the
boundary `i = len r`. -/
theorem identity_laws (r : Nawa.Rope ℕ) (i : Nat) (hw : r.repr.Wf) (hi : i ≤ r.len) :
    (∃ r', r.insert i [] = .ok r' ∧ r'.to_vec = r.to_vec ∧ r'.len = r.len) ∧
    (∃ r', r.remove i i = .ok r' ∧ r'.to_vec = r.to_vec ∧ r'.len = r.len) := by
  constructor
  · obtain ⟨r', h1, -, h2, h3⟩ := Nawa.Rope.insert_ok hw hi []
    refine ⟨r', h1, ?_, by simpa using h3⟩
    rw [h2]
    simp
  · obtain ⟨r', h1, -, h2, h3⟩ := Nawa.Rope.remove_ok hw (Nat.le_refl i) hi
    refine ⟨r', h1, ?_, by simpa using h3⟩
    rw [h2, List.take_append_drop]

/-- Witness for C9 at the boundary `i = len r` on `r = [7, 8]`. -/
theorem identity_laws_witness :
    (∃ r', (Nawa.Rope.ofList [7, 8]).insert 2 [] = .ok r' ∧
      r'.to_vec = [7, 8] ∧ r'.len = 2) ∧
    (∃ r', (Nawa.Rope.ofList [7, 8]).remove 2 2 = .ok r' ∧
      r'.to_vec = [7, 8] ∧ r'.len = 2) := by
  obtain ⟨⟨r1, ha1, ha2, ha3⟩, ⟨r2, hb1, hb2, hb3⟩⟩ :=
    identity_laws (Nawa.Rope.ofList [7, 8]) 2 trivial (by decide)
  exact ⟨⟨r1, ha1, ha2.trans (by decide), ha3.trans (by decide)⟩,
    ⟨r2, hb1, hb2.trans (by decide), hb3.trans (by decide)⟩⟩

/-- C4: leaves satisfy the invariant; the `node` smart constructor
preserves it and elides empty operands (returning the other operand);
`split`, `insert` and `remove` preserve it whenever they succeed; and on a
well-formed `Node` the cached count is the sum of the children's element
counts, with neither child empty. -/
theorem invariant_preservation :
    (∀ xs : List ℕ, (Nawa.Repr.Leaf xs).Wf) ∧
    (∀ a b : Nawa.Repr ℕ, a.Wf → b.Wf → (Nawa.Repr.node a b).Wf) ∧
    (∀ a b : Nawa.Repr ℕ, a.len = 0 → Nawa.Repr.node a b = b) ∧
    (∀ a b : Nawa.Repr ℕ, a.len ≠ 0 → b.len = 0 → Nawa.Repr.node a b = a) ∧
    (∀ (t : Nawa.Repr ℕ) (i : Nat) (a b : Nawa.Repr ℕ),
      t.Wf → t.split i = .ok (a, b) → a.Wf ∧ b.Wf) ∧
    (∀ (r r' : Nawa.Rope ℕ) (i : Nat) (xs : List ℕ),
      r.repr.Wf → r.insert i xs = .ok r' → r'.repr.Wf) ∧
    (∀ (r r' : Nawa.Rope ℕ) (s e : Nat),
      r.repr.Wf → r.remove s e = .ok r' → r'.repr.Wf) ∧
    (∀ (l : Nawa.Repr ℕ) (m : Nat) (r : Nawa.Repr ℕ), (Nawa.Repr.Node l m r).Wf →
      m = l.to_vec.length + r.to_vec.length ∧ l.to_vec ≠ [] ∧ r.to_vec ≠ []) := by
  refine ⟨fun xs => trivial, fun a b ha hb => Nawa.Repr.Wf_node ha hb, ?_, ?_, ?_, ?_, ?_, ?_⟩
  · intro a b h0
    simp [Nawa.Repr.node, h0]
  · intro a b h0 h1
    simp [Nawa.Repr.node, h0, h1]
  · intro t i a b hw heq
    exact Nawa.Repr.split_wf hw heq
  · intro r r' i xs hw heq
    exact Nawa.Rope.insert_wf hw heq
  · intro r r' s e hw heq
    exact Nawa.Rope.remove_wf hw heq
  · intro l m r hw
    obtain ⟨hl, hr, hm, hl0, hr0⟩ := Nawa.Repr.Wf_Node_iff.mp hw
    have h1 := Nawa.Repr.length_to_vec hl
    have h2 := Nawa.Repr.length_to_vec hr
    refine ⟨by omega, ?_, ?_⟩
    · intro hnil
      rw [hnil] at h1
      simp at h1
      omega
    · intro hnil
      rw [hnil] at h2
      simp at h2
      omega

/-- Witness for C4: the smart constructor on two concrete non-empty leaves
satisfies the invariant, and elides a concrete empty operand on either
side. -/
theorem invariant_preservation_witness :
    (Nawa.Repr.node (.Leaf [1]) (.Leaf [2, 3])).Wf ∧
    Nawa.Repr.node (.Leaf ([] : List ℕ)) (.Leaf [7]) = .Leaf [7] ∧
    Nawa.Repr.node (.Leaf [9]) (.Leaf ([] : List ℕ)) = .Leaf [9] :=
  ⟨invariant_preservation.2.1 _ _ trivial trivial,
   invariant_preservation.2.2.1 _ _ rfl,
   invariant_preservation.2.2.2.1 _ _ (by decide) rfl⟩

/-- C5 counterexample: on the length-2 rope `[0, 1]` with `start = 1`,
`end = 3` (so `start ≤ end` and `end > len`), `remove` fails through the
second split with the diagnostic payload `(1, 2)` — the remainder's length
`len - start = 1` and the relative endpoint `end - start = 2` — not the
rope's length `2` and the offending endpoint `3` that the claim states. -/
theorem remove_oob_diag_cex :
    (Nawa.Rope.ofList [0, 1]).remove 1 3 =
      .error (.indexOutOfBounds 1 2) ∧
    RopeError.indexOutOfBounds 1 2 ≠ RopeError.indexOutOfBounds 2 3 := by
  constructor
  · rfl
  · decide

/-- C5 (amended): `delete` fails with InvalidRange iff `start > end`;
otherwise it fails iff `end > len`, but the failure surfaces through the
FIRST split when `start > len`, reporting `(len, start)`, and only
otherwise through the second split, whose diagnostic reports the
remainder's length `len - start` and the relative endpoint `end - start`
(not `len` and `end` themselves). -/
theorem remove_error_behavior (r : Nawa.Rope ℕ) (s e : Nat) (hw : r.repr.Wf) :
    (e < s → r.remove s e = .error (.invalidRange s e)) ∧
    (s ≤ e → r.len < s → r.remove s e = .error (.indexOutOfBounds r.len s)) ∧
    (s ≤ e → s ≤ r.len → r.len < e →
      r.remove s e = .error (.indexOutOfBounds (r.len - s) (e - s))) ∧
    (s ≤ e → e ≤ r.len → ∃ r', r.remove s e = .ok r') := by
  refine ⟨?_, ?_, ?_, ?_⟩
  · intro h
    exact Nawa.Rope.remove_invalid h
  · intro hse hs
    exact Nawa.Rope.remove_oob_first hse hs
  · intro hse hs he
    exact Nawa.Rope.remove_oob_second hw hs he
  · intro hse he
    obtain ⟨r', h1, -, -, -⟩ := Nawa.Rope.remove_ok hw hse he
    exact ⟨r', h1⟩

/-- Witness for C5 (amended) on `[0, 1]`: a range whose start is already
out of bounds fails through the first split reporting `(2, 5)`, and a
reversed range fails the assertion. -/
theorem remove_error_behavior_witness :
    (Nawa.Rope.ofList [0, 1]).remove 5 6 = .error (.indexOutOfBounds 2 5) ∧
    (Nawa.Rope.ofList [0, 1]).remove 3 2 = .error (.invalidRange 3 2) :=
  ⟨((remove_error_behavior (Nawa.Rope.ofList [0, 1]) 5 6 trivial).2.1
      (by decide) (by decide)).trans rfl,
   (remove_error_behavior (Nawa.Rope.ofList [0, 1]) 3 2 trivial).1 (by decide)⟩

/-- C6: `insert` fails iff `i > len r`, with an IndexOutOfBounds carrying
the rope's length and the offending index; for `i ≤ len r` it never
fails. -/
theorem insert_oob_iff (r : Nawa.Rope ℕ) (i : Nat) (xs : List ℕ) (hw : r.repr.Wf) :
    (r.len < i → r.insert i xs = .error (.indexOutOfBounds r.len i)) ∧
    (i ≤ r.len → ∃ r', r.insert i xs = .ok r') := by
  constructor
  · intro hi
    exact Nawa.Rope.insert_err hi xs
  · intro hi
    obtain ⟨r', h1, -, -, -⟩ := Nawa.Rope.insert_ok hw hi xs
    exact ⟨r', h1⟩

/-- Witness for C6: the `test_nawa_bad` scenario — inserting `"nope"` at
index 123 of the length-3 rope `"hey"` fails reporting length 3 and index
123. -/
theorem insert_oob_iff_witness :
    (Nawa.Rope.ofList [104, 101, 121]).insert 123 [110, 111, 112, 101] =
      .error (.indexOutOfBounds 3 123) :=
  ((insert_oob_iff (Nawa.Rope.ofList [104, 101, 121]) 123
      [110, 111, 112, 101] trivial).1 (by decide)).trans rfl

/-- C8: rope equality holds iff the flattened contents are equal, and the
comparison is the lexicographic order of the flattened contents; in
particular equal content forces equal comparison regardless of tree
shape. -/
theorem eq_ord_by_content (a b : Nawa.Rope ℕ) :
    (Nawa.Rope.beq a b = true ↔ a.to_vec = b.to_vec) ∧
    (Nawa.Rope.cmp a b = .eq ↔ a.to_vec = b.to_vec) ∧
    (Nawa.Rope.cmp a b = .lt ↔ List.Lex (· < ·) a.to_vec b.to_vec) ∧
    (Nawa.Rope.cmp a b = .gt ↔ List.Lex (· < ·) b.to_vec a.to_vec) ∧
    (a.to_vec = b.to_vec → Nawa.Rope.beq a b = true ∧ Nawa.Rope.cmp a b = .eq) := by
  have h1 : Nawa.Rope.beq a b = true ↔ a.to_vec = b.to_vec := by
    simp [Nawa.Rope.beq]
  have h2 : Nawa.Rope.cmp a b = .eq ↔ a.to_vec = b.to_vec :=
    Nawa.cmpList_eq_iff a.to_vec b.to_vec
  refine ⟨h1, h2, ?_, ?_, fun h => ⟨h1.mpr h, h2.mpr h⟩⟩
  · exact Nawa.cmpList_lt_iff a.to_vec b.to_vec
  · exact Nawa.cmpList_gt_iff a.to_vec b.to_vec

/-- Witness for C8: two differently shaped trees with identical flattened
content `[1, 2, 3]` compare equal. -/
theorem eq_ord_by_content_witness :
    Nawa.Rope.beq ⟨.Node (.Leaf [1]) 3 (.Leaf [2, 3])⟩
      ⟨.Node (.Leaf [1, 2]) 3 (.Leaf [3])⟩ = true ∧
    Nawa.Rope.cmp ⟨.Node (.Leaf [1]) 3 (.Leaf [2, 3])⟩
      ⟨.Node (.Leaf [1, 2]) 3 (.Leaf [3])⟩ = .eq :=
  (eq_ord_by_content ⟨.Node (.Leaf [1]) 3 (.Leaf [2, 3])⟩
    ⟨.Node (.Leaf [1, 2]) 3 (.Leaf [3])⟩).2.2.2.2 (by decide)

/-- C10: for `start ≤ end` with `end` past the length, the oracle's
`remove` succeeds, dropping only the in-bounds indices of
`[start, min(end, len))`, while the core rope's `remove` fails with an
IndexOutOfBounds condition on the same input; and the oracle's `remove`
never fails when `start ≤ end`. -/
theorem naive_remove_overrun :
    (∀ (l : List ℕ) (s e : Nat), s ≤ e → l.length < e →
      (Naive.Rope.fromList l).remove s e =
        .ok ⟨l.take s ++ l.drop (min e l.length)⟩) ∧
    (∀ (r : Nawa.Rope ℕ) (s e : Nat), r.repr.Wf → s ≤ e → r.len < e →
      ∃ len idx, r.remove s e = .error (.indexOutOfBounds len idx)) ∧
    (∀ (l : List ℕ) (s e : Nat), s ≤ e →
      ∃ v, (Naive.Rope.fromList l).remove s e = .ok v) := by
  refine ⟨?_, ?_, ?_⟩
  · intro l s e hse he
    have h1 : l.drop e = [] := List.drop_eq_nil_of_le (by omega)
    have h2 : l.drop (min e l.length) = [] := List.drop_eq_nil_of_le (by omega)
    rw [Naive.Rope.naive_remove_ok hse]
    show Except.ok (⟨l.take s ++ l.drop e⟩ : Naive.Rope ℕ) = _
    rw [h1, h2]
  · intro r s e hw hse he
    by_cases hs : s ≤ r.len
    · exact ⟨r.len - s, e - s, Nawa.Rope.remove_oob_second hw hs he⟩
    · exact ⟨r.len, s, Nawa.Rope.remove_oob_first hse (Nat.not_le.mp hs)⟩
  · intro l s e hse
    exact ⟨_, Naive.Rope.naive_remove_ok hse⟩

/-- Witness for C10 at `l = [1, 2, 3]`, range `[1, 5)`: the oracle keeps
`[1]` while the core rope fails. -/
theorem naive_remove_overrun_witness :
    (Naive.Rope.fromList [1, 2, 3]).remove 1 5 = .ok ⟨[1]⟩ ∧
    (∃ len idx, (Nawa.Rope.ofList [1, 2, 3]).remove 1 5 =
      .error (.indexOutOfBounds len idx)) ∧
    (∃ v, (Naive.Rope.fromList [1, 2, 3]).remove 0 0 = .ok v) :=
  ⟨(naive_remove_overrun.1 [1, 2, 3] 1 5 (by decide) (by decide)).trans rfl,
   naive_remove_overrun.2.1 (Nawa.Rope.ofList [1, 2, 3]) 1 5 trivial
     (by decide) (by decide),
   naive_remove_overrun.2.2 [1, 2, 3] 0 0 (by decide)⟩

/-- C7: any finite sequence of operations, each valid for the evolving
length, applied in lockstep to the tree-based rope (carrying its
invariant) and the flat-vector oracle starting from equal content, keeps
`len`, `is_empty` and `to_vec` in agreement after every step. -/
theorem differential_agreement (ops : List (Op ℕ)) (r : Nawa.Rope ℕ)
    (n : Naive.Rope ℕ) (hw : r.repr.Wf) (hc : r.to_vec = n.to_vec)
    (hv : validSeq n.len ops) :
    lockstep r n ops := by
  induction ops generalizing r n with
  | nil => trivial
  | cons op ops ih =>
      simp only [validSeq] at hv
      obtain ⟨hop, hrest⟩ := hv
      have hrlen : r.to_vec.length = r.len := Nawa.Rope.to_vec_length hw
      have hlen : r.len = n.len := by
        rw [← hrlen, hc]
        rfl
      cases op with
      | ins i xs =>
          simp only [Op.valid] at hop
          simp only [Op.newLen] at hrest
          have hi : i ≤ r.len := by omega
          obtain ⟨r', heq, hw', htv, hlen'⟩ := Nawa.Rope.insert_ok hw hi xs
          have heqn := Naive.Rope.naive_insert_ok (r := n) hop xs
          have hn'len : (⟨n.repr.take i ++ xs ++ n.repr.drop i⟩ : Naive.Rope ℕ).len
              = n.len + xs.length := by
            simp only [Naive.Rope.len] at hop ⊢
            simp only [List.length_append, List.length_take, List.length_drop]
            omega
          have htv' : r'.to_vec
              = (⟨n.repr.take i ++ xs ++ n.repr.drop i⟩ : Naive.Rope ℕ).to_vec := by
            rw [htv, hc]
            rfl
          refine ⟨r', ⟨n.repr.take i ++ xs ++ n.repr.drop i⟩, heq, heqn, ?_, ?_, htv', ?_⟩
          · rw [hlen', hn'len, hlen]
          · rw [Naive.Rope.is_empty_len]
            simp only [Nawa.Rope.is_empty]
            rw [hlen', hn'len, hlen]
          · exact ih r' _ hw' htv' (by rw [hn'len]; exact hrest)
      | del s e =>
          simp only [Op.valid] at hop
          obtain ⟨hse, he⟩ := hop
          simp only [Op.newLen] at hrest
          have he' : e ≤ r.len := by omega
          obtain ⟨r', heq, hw', htv, hlen'⟩ := Nawa.Rope.remove_ok hw hse he'
          have heqn := Naive.Rope.naive_remove_ok (r := n) (s := s) (e := e) hse
          have hn'len : (⟨n.repr.take s ++ n.repr.drop e⟩ : Naive.Rope ℕ).len
              = n.len - (e - s) := by
            simp only [Naive.Rope.len] at he ⊢
            simp only [List.length_append, List.length_take, List.length_drop]
            omega
          have htv' : r'.to_vec
              = (⟨n.repr.take s ++ n.repr.drop e⟩ : Naive.Rope ℕ).to_vec := by
            rw [htv, hc]
            rfl
          refine ⟨r', ⟨n.repr.take s ++ n.repr.drop e⟩, heq, heqn, ?_, ?_, htv', ?_⟩
          · rw [hlen', hn'len, hlen]
          · rw [Naive.Rope.is_empty_len]
            simp only [Nawa.Rope.is_empty]
            rw [hlen', hn'len, hlen]
          · exact ih r' _ hw' htv' (by rw [hn'len]; exact hrest)

/-- Witness for C7: a concrete two-step valid sequence (an insert then a
delete) on equal starting content `[1, 2]` runs in lockstep. -/
theorem differential_agreement_witness :
    lockstep (Nawa.Rope.ofList [1, 2]) (Naive.Rope.fromList [1, 2])
      [Op.ins 1 [5], Op.del 0 2] :=
  differential_agreement [Op.ins 1 [5], Op.del 0 2] (Nawa.Rope.ofList [1, 2])
    (Naive.Rope.fromList [1, 2]) trivial rfl
    ⟨(by decide : (1 : Nat) ≤ 2), ⟨(by decide : (0 : Nat) ≤ 2), (by decide : (2 : Nat) ≤ 3)⟩,
      trivial⟩
